import Mathlib

/-!
Verification of the `signals` event-dispatch library (`src/signals/_signals.py`)
against its natural-language specification.

The Python code is shallowly embedded:
* a Python `type` is a natural-number identifier; the ambient method-resolution
  order is a function `M : Ty → List Ty` giving each type's MRO chain
  (`inspect.getmro`), and the universal descriptor `object` is the fixed
  identifier `objectTy`;
* a signature (`tuple` of types) is a `List Ty`;
* a slot is a record of its kind (free callable vs bound method), owner
  identity, `__qualname__`, and parameter annotations
  (`None`/missing ⇒ `Option.none`);
* `Signal._slots_structs` is an insertion-ordered association list from
  signatures to buckets of entries; a bucket entry is either a directly held
  free callable (`Entry.efn`) or a `WeakMethod` proxy (`Entry.ewm`);
* `Signal._weak_methods` is an association list from qualnames to the proxied
  slot;
* weak-reference liveness is an explicit predicate `live` on owner
  identities; dereferencing a proxy of a dead owner yields `none` (Python
  `None`);
* CPython's immediate reference-counting collection of a `WeakMethod` that
  loses its last strong reference is modelled by removing that proxy from
  every bucket at the moment the `_weak_methods` entry is replaced or
  deleted;
* the process-wide executor global `_processor` is an `Option Processor`
  threaded explicitly, and fallible operations return `Except`.
-/

set_option autoImplicit false

namespace Signals

/-- A Python type, identified by a natural number. -/
abbrev Ty := Nat

/-- A signature: an ordered tuple of type descriptors. -/
abbrev Sig := List Ty

/-- The universal "accepts anything" descriptor, Python's `object`. -/
def objectTy : Ty := 0

/-- First index of `x` in a list (`list.index`), `none` when absent
(where Python raises `ValueError`). -/
def idxOf? {α : Type} [DecidableEq α] (x : α) : List α → Option Nat
  | [] => none
  | y :: ys => if y = x then some 0 else (idxOf? x ys).map (· + 1)

/-- The per-position loop of `Signal._similarity`: walk the zipped pair list
accumulating MRO depths (`inspect.getmro(s[0]).index(s[1])`), returning `-1`
at the first position whose registered type is absent from the candidate
type's MRO chain. -/
def mroDiff (M : Ty → List Ty) : List (Ty × Ty) → Int → Int
  | [], acc => acc
  | p :: rest, acc =>
    match idxOf? p.2 (M p.1) with
    | none => -1
    | some i => mroDiff M rest (acc + (i : Int))

/-- The per-pair body of `Signal._similarity`: the compatibility distance of a
candidate signature against one registered signature. `-2` on arity mismatch,
`0` on a perfect positional match, `-1` if some registered type is not in the
candidate type's MRO chain, otherwise the sum of MRO depths. -/
def distance (M : Ty → List Ty) (cand reg : Sig) : Int :=
  if cand.length ≠ reg.length then -2
  else if (cand.zip reg).all (fun p => p.1 == p.2) then 0
  else mroDiff M (cand.zip reg) 0

/-- The two slot kinds distinguished by `inspect.ismethod`. -/
inductive SlotKind
  | free
  | method
deriving DecidableEq

/-- A slot: a callable with its kind, owning object (meaningful for bound
methods), `__qualname__`, and in-order parameter annotations
(`none` = unannotated). -/
structure Slot where
  kind : SlotKind
  owner : Nat
  qual : Nat
  annots : List (Option Ty)
deriving DecidableEq

/-- A bucket entry of `_slots_structs`: a free callable held directly, or a
`WeakMethod` proxy for a bound method. -/
inductive Entry
  | efn (s : Slot)
  | ewm (s : Slot)
deriving DecidableEq

/-- The mutable state of a `Signal` instance: `priority`, `_slots_structs`
(insertion-ordered dict from signature tuples to weak slot sets) and
`_weak_methods` (qualname-keyed dict of `WeakMethod` proxies). -/
structure Signal where
  priority : Int
  slotsStructs : List (Sig × List Entry)
  weakMethods : List (Nat × Slot)
deriving DecidableEq

/-- The fully-generalized signature of the same length: `object` at every
position (`tuple([object for _ in typedef])`). -/
def genSig (td : Sig) : Sig := td.map (fun _ => objectTy)

/-- Python dict assignment `d[k] = v`: replace in place if the key exists,
otherwise append. -/
def dictInsert (k : Sig) (v : List Entry) :
    List (Sig × List Entry) → List (Sig × List Entry)
  | [] => [(k, v)]
  | b :: rest => if b.1 = k then (k, v) :: rest else b :: dictInsert k v rest

/-- `Signal.__init__`: for each supplied typedef, register the typedef itself
and its fully-generalized version (every position `object`), each with a
fresh empty weak set. (The `TypeError` branch for non-iterable arguments is
outside this model: every `Sig` is iterable.) -/
def Signal.mkSignal (typedefs : List Sig) (priority : Int) : Signal :=
  { priority := priority
    slotsStructs :=
      typedefs.foldl
        (fun bs td => dictInsert (genSig td) [] (dictInsert td [] bs))
        []
    weakMethods := [] }

/-- The `Signal.typedefs` property: the registered signature keys. -/
def Signal.typedefs (sg : Signal) : List Sig := sg.slotsStructs.map (·.1)

/-- `Signal._similarity`: the distance of the given typedef against every
registered signature, in registry order. -/
def Signal.similarity (M : Ty → List Ty) (sg : Signal) (typedef : Sig) :
    List (Sig × Int) :=
  sg.typedefs.map (fun k => (k, distance M typedef k))

/-- `v[1] > tolerance` for a possibly-infinite tolerance (`none` models the
default `float('inf')`). -/
def exceeds (d : Int) : Option Nat → Bool
  | none => false
  | some t => decide ((t : Int) < d)

/-- Dereference a bucket entry as `Signal.slots` does: free callables are
returned as-is; a `WeakMethod` is called, yielding the live bound method or
`None` when the owner has died. -/
def deref (live : Nat → Bool) : Entry → Option Slot
  | .efn s => some s
  | .ewm s => if live s.owner then some s else none

/-- Dict lookup `_slots_structs[k]` for a key produced by iteration. -/
def bucketOf (sg : Signal) (k : Sig) : List Entry :=
  ((sg.slotsStructs.find? (fun b => b.1 = k)).map (·.2)).getD []

/-- `Signal.slots`: gather the entries of every bucket whose distance `d`
from the queried typedef satisfies `0 ≤ d ≤ tolerance`, then dereference
`WeakMethod` proxies (dead owners produce `none`, i.e. Python `None`, in the
returned list). -/
def Signal.slots (M : Ty → List Ty) (live : Nat → Bool) (sg : Signal)
    (typedef : Sig) (tol : Option Nat) : List (Option Slot) :=
  let sim := Signal.similarity M sg typedef
  let rtn := sim.foldl
    (fun acc v =>
      if v.2 < 0 then acc
      else if exceeds v.2 tol then acc
      else acc ++ bucketOf sg v.1) []
  rtn.map (deref live)

/-- `Signal._read_annotations`: a slot's derived signature, with `object` at
every unannotated position. -/
def readAnnotations (slot : Slot) : Sig :=
  slot.annots.map (fun a => a.getD objectTy)

/-- Python `min` over a nonempty list (left-most minimal value). -/
def listMin : List Int → Int
  | [] => 0
  | x :: xs => xs.foldl min x

/-- `seq.index(min(seq))`: the first index achieving the minimum. -/
def argminIdx (l : List Int) : Nat := (idxOf? (listMin l) l).getD 0

/-- The `[v for v in self._similarity(types) if v[1] >= 0]` filter in
`Signal.connect`. -/
def similarFiltered (M : Ty → List Ty) (sg : Signal) (types : Sig) :
    List (Sig × Int) :=
  (Signal.similarity M sg types).filter (fun v => 0 ≤ v.2)

/-- The bucket key `Signal.connect` selects: the registered signature at the
first index of minimal distance among the non-negative entries. -/
def chosenTypedef (M : Ty → List Ty) (sg : Signal) (types : Sig) : Sig :=
  let similar := similarFiltered M sg types
  (((similar.map (·.1)).get? (argminIdx (similar.map (·.2))))).getD []

/-- The bucket entry `connect` adds for a slot: the slot itself when free, a
`WeakMethod` proxy when bound. -/
def mkEntry (slot : Slot) : Entry :=
  match slot.kind with
  | .method => .ewm slot
  | .free => .efn slot

/-- Apply `f` to the bucket stored under key `k`. -/
def updBucket (sg : Signal) (k : Sig) (f : List Entry → List Entry) : Signal :=
  { sg with slotsStructs :=
      sg.slotsStructs.map (fun b => if b.1 = k then (b.1, f b.2) else b) }

/-- `WeakSet.add`: a no-op when an equal element is already present. -/
def setAdd (e : Entry) (b : List Entry) : List Entry :=
  if e ∈ b then b else b ++ [e]

/-- `self._weak_methods.get(q)`-style lookup. -/
def wmLookup (q : Nat) (l : List (Nat × Slot)) : Option Slot :=
  (l.find? (fun p => p.1 = q)).map (·.2)

/-- Dict assignment `self._weak_methods[q] = s`. -/
def wmInsert (q : Nat) (s : Slot) : List (Nat × Slot) → List (Nat × Slot)
  | [] => [(q, s)]
  | p :: rest => if p.1 = q then (q, s) :: rest else p :: wmInsert q s rest

/-- Dict deletion `del self._weak_methods[q]` (the key is known present). -/
def wmRemove (q : Nat) (l : List (Nat × Slot)) : List (Nat × Slot) :=
  l.filter (fun p => ¬ p.1 = q)

/-- The garbage-collection side effect of dropping the last strong reference
to the `WeakMethod` stored under qualname `q`: the `WeakSet`s' removal
callbacks delete it from every bucket. -/
def purgeQual (q : Nat) (sg : Signal) : Signal :=
  { sg with slotsStructs :=
      sg.slotsStructs.map (fun b =>
        (b.1, b.2.filter (fun e =>
          match e with
          | .ewm s => ¬ s.qual = q
          | .efn _ => True))) }

/-- The "no similar signal type definitions found" `ValueError` raised by
`Signal.connect`, carrying the slot's qualname and its derived types. -/
structure ConnectError where
  qual : Nat
  types : Sig
deriving DecidableEq

/-- `Signal.connect`: derive the slot's signature from its annotations, keep
the registered signatures at non-negative distance, fail if none remains,
otherwise add the slot (weakly; via a `WeakMethod` proxy registered under its
qualname if bound, replacing — and thereby garbage-collecting — any proxy
already stored under that qualname) to the bucket of minimal distance. -/
def Signal.connect (M : Ty → List Ty) (sg : Signal) (slot : Slot) :
    Except ConnectError Signal :=
  let types := readAnnotations slot
  if similarFiltered M sg types = [] then
    .error ⟨slot.qual, types⟩
  else
    let td := chosenTypedef M sg types
    match slot.kind with
    | .method =>
      let sg1 := if (wmLookup slot.qual sg.weakMethods).isSome
                 then purgeQual slot.qual sg else sg
      let sg2 := { sg1 with weakMethods := wmInsert slot.qual slot sg1.weakMethods }
      .ok (updBucket sg2 td (setAdd (.ewm slot)))
    | .free => .ok (updBucket sg td (setAdd (.efn slot)))

/-- `Signal.disconnect`: for a bound method, `del self._weak_methods[qual]` —
a `KeyError` (modelled as `.error ()`) when the qualname is absent, and
otherwise the deletion plus the garbage-collection purge of the dropped
proxy from every bucket; for a free callable, removal from every bucket that
holds it. -/
def Signal.disconnect (sg : Signal) (slot : Slot) : Except Unit Signal :=
  match slot.kind with
  | .method =>
    if (wmLookup slot.qual sg.weakMethods).isSome then
      .ok { purgeQual slot.qual sg with
              weakMethods := wmRemove slot.qual sg.weakMethods }
    else
      .error ()
  | .free =>
    .ok { sg with slotsStructs :=
            sg.slotsStructs.map (fun b =>
              (b.1, b.2.filter (fun e => ¬ e = Entry.efn slot))) }

/-- A `SignalTask`: priority, the handler taken verbatim from the list
`Signal.slots` returned (hence possibly `none` = Python `None`), and the
emitted argument types. -/
structure SignalTask where
  priority : Int
  func : Option Slot
  args : List Ty
deriving DecidableEq

/-- The `PriorityThreadPoolExecutor` state relevant here: its `_shutdown`
flag and the contents of its priority work queue. -/
structure Processor where
  isShutdown : Bool
  workQueue : List (Int × SignalTask)
deriving DecidableEq

/-- `PriorityThreadPoolExecutor.submit`: a `RuntimeError` after shutdown,
otherwise enqueue the work item at the given priority. -/
def Processor.submit (p : Processor) (pri : Int) (t : SignalTask) :
    Except String Processor :=
  if p.isShutdown then .error "cannot schedule new futures after shutdown"
  else .ok { p with workQueue := p.workQueue ++ [(pri, t)] }

/-- The module-global `_processor` (`None` until first use). -/
abbrev HubState := Option Processor

/-- `getSignalProcessor`: return the global executor, building a fresh one
(not shut down, empty queue) when the global is `None`. -/
def getSignalProcessor (h : HubState) : Processor :=
  match h with
  | some p => p
  | none => { isShutdown := false, workQueue := [] }

/-- `registerEmission`: submit a task to the (lazily built) executor. -/
def registerEmission (h : HubState) (t : SignalTask) : Except String HubState :=
  ((getSignalProcessor h).submit t.priority t).map some

/-- The module-level `shutdown()`: stop the executor if one exists and reset
the global to `None`; in every case the global ends up `None`. -/
def hubShutdown (_ : HubState) : HubState := none

/-- `Signal.emit`: compute the runtime signature of the arguments (an
argument is modelled by its concrete type), query `slots` with the default
infinite tolerance, and submit one task per returned handler at this
signal's priority. -/
def Signal.emit (M : Ty → List Ty) (live : Nat → Bool) (sg : Signal)
    (args : List Ty) (h : HubState) : Except String HubState :=
  let handlers := Signal.slots M live sg args none
  handlers.foldlM
    (fun hh handler =>
      registerEmission hh
        { priority := sg.priority, func := handler, args := args })
    h

/-- The per-entry contribution of `Signal.slots`' gathering loop: the bucket
under `v.1` when `0 ≤ v.2 ≤ tolerance`, nothing otherwise. -/
def slotsPick (sg : Signal) (tol : Option Nat) (v : Sig × Int) : List Entry :=
  if v.2 < 0 then [] else if exceeds v.2 tol then [] else bucketOf sg v.1

/-- Whether a slot's referent is still alive: a free callable is held by the
caller, a bound method is alive iff its owner is. -/
def slotLive (live : Nat → Bool) (slot : Slot) : Bool :=
  match slot.kind with
  | .method => live slot.owner
  | .free => true

/-- Reachable-state invariant: entries stored directly (without a proxy) are
free callables — `connect` wraps every bound method in a `WeakMethod`. -/
def bucketsWellKinded (sg : Signal) : Bool :=
  sg.slotsStructs.all (fun b => b.2.all (fun e =>
    match e with
    | .efn s => s.kind == SlotKind.free
    | .ewm _ => true))

/-- Reachable-state invariant: every `WeakMethod` proxy sitting in a bucket
is kept alive by a `_weak_methods` entry under its qualname. -/
def wmCoherent (sg : Signal) : Bool :=
  sg.slotsStructs.all (fun b => b.2.all (fun e =>
    match e with
    | .ewm s => (wmLookup s.qual sg.weakMethods).isSome
    | .efn _ => true))

/-!
Concrete evaluation environment used by witnesses and counterexamples,
mirroring the repository's own test fixture (`Signal([int, str])` with
`int`, `str` one generalization step below `object`):
type `0` = `object`, `1` = `int`, `2` = `str`.
-/

/-- A small concrete MRO table: `object` is its own chain, `int` and `str`
derive directly from `object`, `3`/`4` are subclasses of `int`/`str`. -/
def Mex : Ty → List Ty
  | 1 => [1, 0]
  | 2 => [2, 0]
  | 3 => [3, 1, 0]
  | 4 => [4, 2, 0]
  | n => [n]

/-- Liveness environment in which every owner is alive. -/
def liveAll : Nat → Bool := fun _ => true

/-- Liveness environment in which owner `7` has been garbage collected. -/
def liveDead : Nat → Bool := fun o => decide (o ≠ 7)

/-- A free slot annotated `(v1: int, v2: str)`. -/
def fwEx : Slot := ⟨SlotKind.free, 0, 10, [some 1, some 2]⟩

/-- A free slot with no parameter annotations. -/
def fplainEx : Slot := ⟨SlotKind.free, 0, 11, [none, none]⟩

/-- A bound-method slot of owner `7`, annotated `(v1: int, v2: str)`. -/
def mwEx : Slot := ⟨SlotKind.method, 7, 12, [some 1, some 2]⟩

/-- A free slot with three annotated parameters `(str, str, str)`. -/
def f3Ex : Slot := ⟨SlotKind.free, 0, 13, [some 2, some 2, some 2]⟩

/-- The same class method bound to owner `1` (same qualname `12`). -/
def mAEx : Slot := ⟨SlotKind.method, 1, 12, [some 1, some 2]⟩

/-- The same class method bound to owner `2` (same qualname `12`). -/
def mBEx : Slot := ⟨SlotKind.method, 2, 12, [some 1, some 2]⟩

/-! ### Library lemmas about the embedded operations -/

theorem idxOf?_eq_none {α : Type} [DecidableEq α] {x : α} :
    ∀ {l : List α}, idxOf? x l = none ↔ x ∉ l := by
  intro l
  induction l with
  | nil => simp [idxOf?]
  | cons y ys ih =>
    by_cases hy : y = x
    · subst hy
      simp [idxOf?]
    · simp [idxOf?, hy, Option.map_eq_none', ih, Ne.symm hy]

theorem idxOf?_of_mem {α : Type} [DecidableEq α] {x : α} :
    ∀ {l : List α}, x ∈ l → ∃ i, idxOf? x l = some i ∧ l.get? i = some x := by
  intro l
  induction l with
  | nil => intro h; cases h
  | cons y ys ih =>
    intro h
    by_cases hy : y = x
    · exact ⟨0, by simp [idxOf?, hy], by simp [hy]⟩
    · have hx : x ∈ ys := by
        cases h with
        | head => exact absurd rfl hy
        | tail _ h => exact h
      obtain ⟨i, hi, hg⟩ := ih hx
      exact ⟨i + 1, by simp [idxOf?, hy, hi], by simpa using hg⟩

theorem foldl_min_mem : ∀ (xs : List Int) (x : Int),
    xs.foldl min x = x ∨ xs.foldl min x ∈ xs := by
  intro xs
  induction xs with
  | nil => intro x; left; rfl
  | cons a as ih =>
    intro x
    rcases ih (min x a) with h | h
    · rcases le_total x a with hxa | hxa
      · left; rw [List.foldl_cons, h]; exact min_eq_left hxa
      · right
        rw [List.foldl_cons, h, min_eq_right hxa]
        exact List.mem_cons_self a as
    · right
      exact List.mem_cons_of_mem a h

theorem foldl_min_le : ∀ (xs : List Int) (x : Int),
    xs.foldl min x ≤ x ∧ ∀ y ∈ xs, xs.foldl min x ≤ y := by
  intro xs
  induction xs with
  | nil => intro x; exact ⟨le_refl x, by simp⟩
  | cons a as ih =>
    intro x
    obtain ⟨h1, h2⟩ := ih (min x a)
    constructor
    · exact le_trans h1 (min_le_left x a)
    · intro y hy
      cases hy with
      | head => exact le_trans h1 (min_le_right x a)
      | tail _ hy => exact h2 y hy

theorem listMin_mem {l : List Int} (h : l ≠ []) : listMin l ∈ l := by
  cases l with
  | nil => exact absurd rfl h
  | cons x xs =>
    show xs.foldl min x ∈ x :: xs
    rcases foldl_min_mem xs x with h1 | h1
    · rw [h1]; exact List.mem_cons_self x xs
    · exact List.mem_cons_of_mem x h1

theorem listMin_le {l : List Int} {y : Int} (h : y ∈ l) : listMin l ≤ y := by
  cases l with
  | nil => cases h
  | cons x xs =>
    show xs.foldl min x ≤ y
    rcases List.mem_cons.mp h with h1 | h1
    · rw [h1]; exact (foldl_min_le xs x).1
    · exact (foldl_min_le xs x).2 y h1

theorem argminIdx_spec {l : List Int} (h : l ≠ []) :
    l.get? (argminIdx l) = some (listMin l) := by
  obtain ⟨i, hi, hg⟩ := idxOf?_of_mem (listMin_mem h)
  rw [argminIdx, hi]
  exact hg

theorem zip_self_all_eq (S : Sig) : (S.zip S).all (fun p => p.1 == p.2) = true := by
  induction S with
  | nil => rfl
  | cons a as ih => simpa using ih

theorem mroDiff_neg_one (M : Ty → List Ty) :
    ∀ (l : List (Ty × Ty)) (acc : Int),
      (∃ p ∈ l, idxOf? p.2 (M p.1) = none) → mroDiff M l acc = -1 := by
  intro l
  induction l with
  | nil => intro acc h; obtain ⟨p, hp, _⟩ := h; cases hp
  | cons q rest ih =>
    intro acc h
    rw [mroDiff]
    cases hq : idxOf? q.2 (M q.1) with
    | none => rfl
    | some i =>
      apply ih
      obtain ⟨p, hp, hnone⟩ := h
      cases hp with
      | head => rw [hq] at hnone; cases hnone
      | tail _ hp => exact ⟨p, hp, hnone⟩

theorem mroDiff_found (M : Ty → List Ty) :
    ∀ (l : List (Ty × Ty)) (acc : Int),
      (∀ p ∈ l, (idxOf? p.2 (M p.1)).isSome) →
      mroDiff M l acc =
        acc + (l.map (fun p => (((idxOf? p.2 (M p.1)).getD 0 : Nat) : Int))).sum := by
  intro l
  induction l with
  | nil => intro acc _; simp [mroDiff]
  | cons q rest ih =>
    intro acc h
    have hq : (idxOf? q.2 (M q.1)).isSome := h q (List.mem_cons_self q rest)
    obtain ⟨i, hi⟩ := Option.isSome_iff_exists.mp hq
    have hstep : mroDiff M (q :: rest) acc = mroDiff M rest (acc + (i : Int)) := by
      rw [mroDiff, hi]
    rw [hstep, ih (acc + (i : Int)) (fun p hp => h p (List.mem_cons_of_mem q hp))]
    simp [hi]
    ring

theorem distance_len_ne {M : Ty → List Ty} {c r : Sig}
    (h : c.length ≠ r.length) : distance M c r = -2 := by
  rw [distance, if_pos h]

theorem distance_self (M : Ty → List Ty) (S : Sig) : distance M S S = 0 := by
  rw [distance, if_neg (by simp), if_pos (zip_self_all_eq S)]

theorem distance_all_eq {M : Ty → List Ty} {c r : Sig}
    (hlen : c.length = r.length) (h : ∀ p ∈ c.zip r, p.1 = p.2) :
    distance M c r = 0 := by
  rw [distance, if_neg (by simp [hlen]), if_pos]
  simpa [List.all_eq_true] using h

theorem distance_incompatible {M : Ty → List Ty} {c r : Sig}
    (hlen : c.length = r.length) (hne : ¬ ∀ p ∈ c.zip r, p.1 = p.2)
    (h : ∃ p ∈ c.zip r, idxOf? p.2 (M p.1) = none) :
    distance M c r = -1 := by
  rw [distance, if_neg (by simp [hlen]), if_neg (by simpa [List.all_eq_true] using hne)]
  exact mroDiff_neg_one M _ 0 h

theorem distance_sum {M : Ty → List Ty} {c r : Sig}
    (hlen : c.length = r.length) (hne : ¬ ∀ p ∈ c.zip r, p.1 = p.2)
    (h : ∀ p ∈ c.zip r, (idxOf? p.2 (M p.1)).isSome) :
    distance M c r =
      ((c.zip r).map (fun p => (((idxOf? p.2 (M p.1)).getD 0 : Nat) : Int))).sum ∧
    0 ≤ distance M c r := by
  have heq : distance M c r =
      ((c.zip r).map (fun p => (((idxOf? p.2 (M p.1)).getD 0 : Nat) : Int))).sum := by
    rw [distance, if_neg (by simp [hlen]), if_neg (by simpa [List.all_eq_true] using hne)]
    simpa using mroDiff_found M (c.zip r) 0 h
  refine ⟨heq, ?_⟩
  rw [heq]
  apply List.sum_nonneg
  intro x hx
  obtain ⟨p, _, hp⟩ := List.mem_map.mp hx
  rw [← hp]
  exact Int.ofNat_nonneg _

theorem mem_similarity {M : Ty → List Ty} {sg : Signal} {t : Sig} {v : Sig × Int} :
    v ∈ Signal.similarity M sg t ↔ v.1 ∈ sg.typedefs ∧ v.2 = distance M t v.1 := by
  constructor
  · intro h
    obtain ⟨k, hk, hv⟩ := List.mem_map.mp h
    cases hv
    exact ⟨hk, rfl⟩
  · intro ⟨h1, h2⟩
    apply List.mem_map.mpr
    refine ⟨v.1, h1, ?_⟩
    rw [← h2]

theorem mem_similarFiltered {M : Ty → List Ty} {sg : Signal} {t : Sig} {v : Sig × Int} :
    v ∈ similarFiltered M sg t ↔
      v.1 ∈ sg.typedefs ∧ v.2 = distance M t v.1 ∧ 0 ≤ v.2 := by
  rw [similarFiltered, List.mem_filter, mem_similarity]
  simp [and_assoc]

theorem similarFiltered_ne_nil {M : Ty → List Ty} {sg : Signal} {t : Sig} {k : Sig}
    (hk : k ∈ sg.typedefs) (hd : 0 ≤ distance M t k) :
    similarFiltered M sg t ≠ [] := by
  intro hnil
  have : (k, distance M t k) ∈ similarFiltered M sg t :=
    mem_similarFiltered.mpr ⟨hk, rfl, hd⟩
  rw [hnil] at this
  cases this

theorem similarFiltered_eq_nil {M : Ty → List Ty} {sg : Signal} {t : Sig}
    (h : ∀ k ∈ sg.typedefs, distance M t k < 0) :
    similarFiltered M sg t = [] := by
  apply List.filter_eq_nil_iff.mpr
  intro v hv
  obtain ⟨h1, h2⟩ := mem_similarity.mp hv
  simp only [decide_eq_true_eq]
  rw [h2]
  exact not_le.mpr (h v.1 h1)

theorem chosenTypedef_spec {M : Ty → List Ty} {sg : Signal} {types : Sig}
    (h : similarFiltered M sg types ≠ []) :
    chosenTypedef M sg types ∈ sg.typedefs ∧
    0 ≤ distance M types (chosenTypedef M sg types) ∧
    ∀ k ∈ sg.typedefs, 0 ≤ distance M types k →
      distance M types (chosenTypedef M sg types) ≤ distance M types k := by
  set sim := similarFiltered M sg types with hsim
  have hds : sim.map (·.2) ≠ [] := by
    intro hnil
    exact h (List.map_eq_nil_iff.mp hnil)
  have hget := argminIdx_spec hds
  set i := argminIdx (sim.map (·.2)) with hidef
  have hgi : (sim.get? i).map (·.2) = some (listMin (sim.map (·.2))) := by
    rw [← List.get?_map]
    exact hget
  obtain ⟨pr, hpr, hpr2⟩ : ∃ pr, sim.get? i = some pr ∧ pr.2 = listMin (sim.map (·.2)) := by
    cases hp : sim.get? i with
    | none => rw [hp] at hgi; cases hgi
    | some pr =>
      rw [hp] at hgi
      exact ⟨pr, rfl, Option.some_injective _ hgi⟩
  have hchosen : chosenTypedef M sg types = pr.1 := by
    rw [chosenTypedef, ← hsim, ← hidef, List.get?_map, hpr]
    rfl
  have hmem : pr ∈ sim := List.get?_mem hpr
  obtain ⟨hk, hd, hnn⟩ := mem_similarFiltered.mp hmem
  refine ⟨hchosen ▸ hk, ?_, ?_⟩
  · rw [hchosen, ← hd]; exact hnn
  · intro k hkk hdk
    have hmem2 : (k, distance M types k) ∈ sim :=
      mem_similarFiltered.mpr ⟨hkk, rfl, hdk⟩
    have : distance M types k ∈ sim.map (·.2) :=
      List.mem_map.mpr ⟨(k, distance M types k), hmem2, rfl⟩
    rw [hchosen, ← hd, hpr2]
    exact listMin_le this

theorem find?_map_keyfix (g : (Sig × List Entry) → (Sig × List Entry))
    (hg : ∀ b, (g b).1 = b.1) (k : Sig) :
    ∀ (l : List (Sig × List Entry)),
      (l.map g).find? (fun b => b.1 = k) = (l.find? (fun b => b.1 = k)).map g := by
  intro l
  induction l with
  | nil => rfl
  | cons b rest ih =>
    by_cases hb : b.1 = k
    · simp [List.find?_cons, hg b, hb]
    · simp [List.find?_cons, hg b, hb, ih]

theorem mem_bucketOf {sg : Signal} {k : Sig} {e : Entry} (h : e ∈ bucketOf sg k) :
    ∃ b ∈ sg.slotsStructs, b.1 = k ∧ e ∈ b.2 := by
  rw [bucketOf] at h
  cases hf : sg.slotsStructs.find? (fun b => b.1 = k) with
  | none => rw [hf] at h; cases h
  | some b =>
    rw [hf] at h
    refine ⟨b, List.mem_of_find?_eq_some hf, ?_, h⟩
    have := List.find?_some hf
    simpa using this

theorem find?_of_mem_typedefs {sg : Signal} {k : Sig} (h : k ∈ sg.typedefs) :
    ∃ b, sg.slotsStructs.find? (fun b => b.1 = k) = some b ∧ b.1 = k ∧
      b ∈ sg.slotsStructs ∧ bucketOf sg k = b.2 := by
  obtain ⟨b0, hb0, hb0k⟩ := List.mem_map.mp h
  have hsome : (sg.slotsStructs.find? (fun b => b.1 = k)).isSome :=
    List.find?_isSome.mpr ⟨b0, hb0, by simp [hb0k]⟩
  obtain ⟨b, hb⟩ := Option.isSome_iff_exists.mp hsome
  have hkey : b.1 = k := by simpa using List.find?_some hb
  exact ⟨b, hb, hkey, List.mem_of_find?_eq_some hb, by rw [bucketOf, hb]; rfl⟩

theorem typedefs_updBucket (sg : Signal) (k : Sig) (f : List Entry → List Entry) :
    (updBucket sg k f).typedefs = sg.typedefs := by
  rw [updBucket, Signal.typedefs, Signal.typedefs, List.map_map]
  apply List.map_congr_left
  intro b _
  by_cases hb : b.1 = k <;> simp [hb]

theorem typedefs_purgeQual (q : Nat) (sg : Signal) :
    (purgeQual q sg).typedefs = sg.typedefs := by
  rw [purgeQual, Signal.typedefs, Signal.typedefs, List.map_map]
  rfl

theorem weakMethods_updBucket (sg : Signal) (k : Sig) (f : List Entry → List Entry) :
    (updBucket sg k f).weakMethods = sg.weakMethods := rfl

theorem bucketOf_updBucket_self {sg : Signal} {k : Sig} (f : List Entry → List Entry)
    (h : k ∈ sg.typedefs) :
    bucketOf (updBucket sg k f) k = f (bucketOf sg k) := by
  obtain ⟨b, hb, hbk, _, hbucket⟩ := find?_of_mem_typedefs h
  rw [bucketOf, updBucket]
  rw [find?_map_keyfix (fun b => if b.1 = k then (b.1, f b.2) else b)
        (by intro b; by_cases hb1 : b.1 = k <;> simp [hb1]) k sg.slotsStructs]
  rw [hb, hbucket]
  simp [hbk]

theorem bucketOf_updBucket_ne {sg : Signal} {k j : Sig} (f : List Entry → List Entry)
    (h : j ≠ k) :
    bucketOf (updBucket sg k f) j = bucketOf sg j := by
  rw [bucketOf, bucketOf, updBucket]
  rw [find?_map_keyfix (fun b => if b.1 = k then (b.1, f b.2) else b)
        (by intro b; by_cases hb1 : b.1 = k <;> simp [hb1]) j sg.slotsStructs]
  cases hf : sg.slotsStructs.find? (fun b => b.1 = j) with
  | none => rfl
  | some b =>
    have hkey : b.1 = j := by simpa using List.find?_some hf
    simp [hkey, h]

theorem bucketOf_purgeQual (q : Nat) (sg : Signal) (k : Sig) :
    bucketOf (purgeQual q sg) k =
      (bucketOf sg k).filter (fun e =>
        match e with
        | .ewm s => ¬ s.qual = q
        | .efn _ => True) := by
  rw [bucketOf, bucketOf, purgeQual]
  rw [find?_map_keyfix
        (fun b => (b.1, b.2.filter (fun e =>
          match e with
          | .ewm s => ¬ s.qual = q
          | .efn _ => True)))
        (by intro b; rfl) k sg.slotsStructs]
  cases hf : sg.slotsStructs.find? (fun b => b.1 = k) with
  | none => rfl
  | some b => rfl

theorem mem_setAdd_self (e : Entry) (b : List Entry) : e ∈ setAdd e b := by
  rw [setAdd]
  by_cases h : e ∈ b
  · simpa [h]
  · simp [h]

theorem mem_setAdd {x e : Entry} {b : List Entry} :
    x ∈ setAdd e b ↔ x ∈ b ∨ x = e := by
  rw [setAdd]
  by_cases h : e ∈ b
  · simp only [h, if_true]
    constructor
    · exact Or.inl
    · intro hx
      rcases hx with hx | hx
      · exact hx
      · rw [hx]; exact h
  · simp [h]

theorem setAdd_eq_self {e : Entry} {b : List Entry} (h : e ∈ b) : setAdd e b = b := by
  rw [setAdd, if_pos h]

theorem sum_map_single {α : Type} (key : α → Sig) (F : α → Nat) (k : Sig) (n : Nat) :
    ∀ (l : List α), (l.map key).Nodup → k ∈ l.map key →
      (∀ b ∈ l, key b ≠ k → F b = 0) → (∀ b ∈ l, key b = k → F b = n) →
      (l.map F).sum = n := by
  intro l
  induction l with
  | nil => intro _ hk; cases hk
  | cons b rest ih =>
    intro hnd hk h0 h1
    simp only [List.map_cons, List.sum_cons]
    by_cases hb : key b = k
    · have hrest : ∀ c ∈ rest, F c = 0 := by
        intro c hc
        apply h0 c (List.mem_cons_of_mem b hc)
        intro hck
        have : key b ∈ rest.map key := by
          rw [hb, ← hck]
          exact List.mem_map.mpr ⟨c, hc, rfl⟩
        exact (List.nodup_cons.mp (by simpa using hnd)).1 this
      have hz : (rest.map F).sum = 0 := by
        apply List.sum_eq_zero
        intro x hx
        obtain ⟨c, hc, hcx⟩ := List.mem_map.mp hx
        rw [← hcx]
        exact hrest c hc
      rw [hz, h1 b (List.mem_cons_self b rest) hb, Nat.add_zero]
    · have hk2 : k ∈ rest.map key := by
        have hk1 : k ∈ key b :: rest.map key := by
          rw [List.map_cons] at hk; exact hk
        rcases List.mem_cons.mp hk1 with h | h
        · exact absurd h.symm hb
        · exact h
      rw [h0 b (List.mem_cons_self b rest) hb,
          ih (List.nodup_cons.mp (by simpa using hnd)).2 hk2
            (fun c hc => h0 c (List.mem_cons_of_mem b hc))
            (fun c hc => h1 c (List.mem_cons_of_mem b hc)),
          Nat.zero_add]

theorem slots_foldl_eq (sg : Signal) (tol : Option Nat) :
    ∀ (sim : List (Sig × Int)) (acc : List Entry),
      sim.foldl
        (fun acc v =>
          if v.2 < 0 then acc
          else if exceeds v.2 tol then acc
          else acc ++ bucketOf sg v.1) acc
      = acc ++ sim.flatMap (slotsPick sg tol) := by
  intro sim
  induction sim with
  | nil => intro acc; simp
  | cons v rest ih =>
    intro acc
    rw [List.foldl_cons, List.flatMap_cons]
    by_cases h1 : v.2 < 0
    · rw [if_pos h1]
      rw [ih acc, slotsPick, if_pos h1]
      simp
    · rw [if_neg h1]
      by_cases h2 : exceeds v.2 tol
      · rw [if_pos h2]
        rw [ih acc, slotsPick, if_neg h1, if_pos h2]
        simp
      · rw [if_neg h2]
        rw [ih (acc ++ bucketOf sg v.1), slotsPick, if_neg h1, if_neg h2]
        simp

theorem slots_eq (M : Ty → List Ty) (live : Nat → Bool) (sg : Signal)
    (t : Sig) (tol : Option Nat) :
    Signal.slots M live sg t tol =
      ((Signal.similarity M sg t).flatMap (slotsPick sg tol)).map (deref live) := by
  rw [Signal.slots, slots_foldl_eq]
  rfl

theorem mem_slots {M : Ty → List Ty} {live : Nat → Bool} {sg : Signal}
    {t : Sig} {tol : Option Nat} {x : Option Slot} :
    x ∈ Signal.slots M live sg t tol ↔
      ∃ k ∈ sg.typedefs, ¬ distance M t k < 0 ∧ exceeds (distance M t k) tol = false ∧
        ∃ e ∈ bucketOf sg k, deref live e = x := by
  rw [slots_eq, List.mem_map]
  constructor
  · intro ⟨e, he, hd⟩
    obtain ⟨v, hv, hev⟩ := List.mem_flatMap.mp he
    obtain ⟨hk, hdist⟩ := mem_similarity.mp hv
    rw [slotsPick] at hev
    by_cases h1 : v.2 < 0
    · rw [if_pos h1] at hev; cases hev
    · rw [if_neg h1] at hev
      by_cases h2 : exceeds v.2 tol
      · rw [if_pos h2] at hev; cases hev
      · rw [if_neg h2] at hev
        refine ⟨v.1, hk, ?_, ?_, e, hev, hd⟩
        · rw [← hdist]; exact h1
        · rw [← hdist]; exact Bool.not_eq_true _ ▸ (by simpa using h2)
  · intro ⟨k, hk, h1, h2, e, he, hd⟩
    refine ⟨e, ?_, hd⟩
    apply List.mem_flatMap.mpr
    refine ⟨(k, distance M t k), mem_similarity.mpr ⟨hk, rfl⟩, ?_⟩
    rw [slotsPick, if_neg h1, if_neg (by simp [h2])]
    exact he

theorem keys_dictInsert (k : Sig) (v : List Entry) :
    ∀ (l : List (Sig × List Entry)),
      (dictInsert k v l).map (·.1) =
        if k ∈ l.map (·.1) then l.map (·.1) else l.map (·.1) ++ [k] := by
  intro l
  induction l with
  | nil => simp [dictInsert]
  | cons b rest ih =>
    by_cases hb : b.1 = k
    · simp [dictInsert, hb]
    · rw [dictInsert, if_neg hb, List.map_cons, ih, List.map_cons]
      by_cases hk : k ∈ rest.map (·.1)
      · rw [if_pos hk, if_pos (List.mem_cons_of_mem b.1 hk)]
      · rw [if_neg hk, if_neg, List.cons_append]
        intro hmem
        rcases List.mem_cons.mp hmem with h | h
        · exact hb h.symm
        · exact hk h

theorem nodup_keys_dictInsert {k : Sig} {v : List Entry} {l : List (Sig × List Entry)}
    (h : (l.map (·.1)).Nodup) : ((dictInsert k v l).map (·.1)).Nodup := by
  rw [keys_dictInsert]
  by_cases hk : k ∈ l.map (·.1)
  · rw [if_pos hk]; exact h
  · rw [if_neg hk]
    apply List.Nodup.append h (List.nodup_singleton k)
    intro a ha hb
    rw [List.mem_singleton.mp hb] at ha
    exact hk ha

theorem toFinset_keys_dictInsert (k : Sig) (v : List Entry) (l : List (Sig × List Entry)) :
    ((dictInsert k v l).map (·.1)).toFinset = insert k (l.map (·.1)).toFinset := by
  rw [keys_dictInsert]
  by_cases hk : k ∈ l.map (·.1)
  · rw [if_pos hk]
    exact (Finset.insert_eq_self.mpr (List.mem_toFinset.mpr hk)).symm
  · rw [if_neg hk, List.toFinset_append, Finset.insert_eq, Finset.union_comm]
    simp

theorem mkSignal_fold_toFinset :
    ∀ (tds : List Sig) (bs : List (Sig × List Entry)),
      ((tds.foldl (fun bs td => dictInsert (genSig td) [] (dictInsert td [] bs)) bs).map
          (·.1)).toFinset =
        (bs.map (·.1)).toFinset ∪ tds.toFinset ∪ (tds.map genSig).toFinset := by
  intro tds
  induction tds with
  | nil => intro bs; simp
  | cons td rest ih =>
    intro bs
    rw [List.foldl_cons, ih, toFinset_keys_dictInsert, toFinset_keys_dictInsert]
    ext x
    simp only [Finset.mem_union, Finset.mem_insert, List.toFinset_cons, List.map_cons]
    tauto

theorem mkSignal_typedefs_toFinset (tds : List Sig) (p : Int) :
    (Signal.mkSignal tds p).typedefs.toFinset =
      tds.toFinset ∪ (tds.map genSig).toFinset := by
  rw [Signal.typedefs, Signal.mkSignal, mkSignal_fold_toFinset]
  simp

theorem mkSignal_fold_nodup :
    ∀ (tds : List Sig) (bs : List (Sig × List Entry)),
      ((bs.map (·.1)).Nodup) →
      ((tds.foldl (fun bs td => dictInsert (genSig td) [] (dictInsert td [] bs)) bs).map
          (·.1)).Nodup := by
  intro tds
  induction tds with
  | nil => intro bs h; exact h
  | cons td rest ih =>
    intro bs h
    rw [List.foldl_cons]
    exact ih _ (nodup_keys_dictInsert (nodup_keys_dictInsert h))

theorem mkSignal_typedefs_nodup (tds : List Sig) (p : Int) :
    (Signal.mkSignal tds p).typedefs.Nodup := by
  rw [Signal.typedefs, Signal.mkSignal]
  exact mkSignal_fold_nodup tds [] (by simp)

theorem wmLookup_eq_none {q : Nat} {l : List (Nat × Slot)} :
    wmLookup q l = none ↔ q ∉ l.map (·.1) := by
  rw [wmLookup, Option.map_eq_none', List.find?_eq_none]
  constructor
  · intro h hq
    obtain ⟨p, hp, hpq⟩ := List.mem_map.mp hq
    have hne : ¬ p.1 = q := by simpa using h p hp
    exact hne hpq
  · intro h p hp
    simp only [decide_eq_true_eq]
    intro hpq
    exact h (List.mem_map.mpr ⟨p, hp, hpq⟩)

theorem wmInsert_filter {q : Nat} {s : Slot} :
    ∀ {l : List (Nat × Slot)}, (l.map (·.1)).Nodup →
      (wmInsert q s l).filter (fun p => p.1 = q) = [(q, s)] := by
  intro l
  induction l with
  | nil => intro _; simp [wmInsert]
  | cons b rest ih =>
    intro hnd
    have hnd1 : (rest.map (·.1)).Nodup := by
      rw [List.map_cons] at hnd
      exact (List.nodup_cons.mp hnd).2
    by_cases hb : b.1 = q
    · rw [wmInsert, if_pos hb]
      have hq : q ∉ rest.map (·.1) := by
        rw [List.map_cons] at hnd
        rw [← hb]
        exact (List.nodup_cons.mp hnd).1
      have hrest : rest.filter (fun p => p.1 = q) = [] := by
        apply List.filter_eq_nil_iff.mpr
        intro p hp
        simp only [decide_eq_true_eq]
        intro hpq
        exact hq (List.mem_map.mpr ⟨p, hp, hpq⟩)
      simp [List.filter_cons, hrest]
    · rw [wmInsert, if_neg hb]
      rw [List.filter_cons, if_neg (by simpa using hb)]
      exact ih hnd1

theorem mem_wmInsert {q : Nat} {s : Slot} {p : Nat × Slot} :
    ∀ {l : List (Nat × Slot)}, p ∈ wmInsert q s l → p ∈ l ∨ p = (q, s) := by
  intro l
  induction l with
  | nil =>
    intro h
    right
    simpa [wmInsert] using h
  | cons b rest ih =>
    intro h
    by_cases hb : b.1 = q
    · rw [wmInsert, if_pos hb] at h
      rcases List.mem_cons.mp h with h1 | h1
      · right; exact h1
      · left; exact List.mem_cons_of_mem b h1
    · rw [wmInsert, if_neg hb] at h
      rcases List.mem_cons.mp h with h1 | h1
      · left; rw [h1]; exact List.mem_cons_self b rest
      · rcases ih h1 with h2 | h2
        · left; exact List.mem_cons_of_mem b h2
        · right; exact h2

theorem wmInsert_keys_nodup {q : Nat} {s : Slot} :
    ∀ {l : List (Nat × Slot)}, (l.map (·.1)).Nodup →
      ((wmInsert q s l).map (·.1)).Nodup := by
  intro l
  induction l with
  | nil => intro _; simp [wmInsert]
  | cons b rest ih =>
    intro hnd
    rw [List.map_cons] at hnd
    obtain ⟨hb1, hb2⟩ := List.nodup_cons.mp hnd
    by_cases hb : b.1 = q
    · rw [wmInsert, if_pos hb, List.map_cons, List.nodup_cons]
      refine ⟨?_, hb2⟩
      show q ∉ rest.map (·.1)
      rw [← hb]
      exact hb1
    · rw [wmInsert, if_neg hb, List.map_cons, List.nodup_cons]
      constructor
      · intro hmem
        obtain ⟨p, hp, hpq⟩ := List.mem_map.mp hmem
        rcases mem_wmInsert hp with h | h
        · exact hb1 (hpq ▸ List.mem_map.mpr ⟨p, h, rfl⟩)
        · exact hb (by rw [← hpq, h])
      · exact ih hb2

theorem connect_error_eq {M : Ty → List Ty} {sg : Signal} {slot : Slot}
    (h : similarFiltered M sg (readAnnotations slot) = []) :
    Signal.connect M sg slot = .error ⟨slot.qual, readAnnotations slot⟩ := by
  simp only [Signal.connect, if_pos h]

theorem connect_free_eq {M : Ty → List Ty} {sg : Signal} {slot : Slot}
    (hk : slot.kind = SlotKind.free)
    (h : ¬ similarFiltered M sg (readAnnotations slot) = []) :
    Signal.connect M sg slot =
      .ok (updBucket sg (chosenTypedef M sg (readAnnotations slot))
            (setAdd (.efn slot))) := by
  obtain ⟨kind, ow, q, an⟩ := slot
  cases hk
  simp only [Signal.connect, if_neg h]

theorem connect_method_eq {M : Ty → List Ty} {sg : Signal} {slot : Slot}
    (hk : slot.kind = SlotKind.method)
    (h : ¬ similarFiltered M sg (readAnnotations slot) = []) :
    Signal.connect M sg slot =
      .ok (updBucket
            { (if (wmLookup slot.qual sg.weakMethods).isSome
               then purgeQual slot.qual sg else sg) with
               weakMethods := wmInsert slot.qual slot
                 (if (wmLookup slot.qual sg.weakMethods).isSome
                  then purgeQual slot.qual sg else sg).weakMethods }
            (chosenTypedef M sg (readAnnotations slot))
            (setAdd (.ewm slot))) := by
  obtain ⟨kind, ow, q, an⟩ := slot
  cases hk
  simp only [Signal.connect, if_neg h]

theorem emit_foldlM_fresh (pri : Int) (args : List Ty) :
    ∀ (handlers : List (Option Slot)) (q : List (Int × SignalTask)),
      (handlers.foldlM
        (fun hh handler =>
          registerEmission hh { priority := pri, func := handler, args := args })
        (some ⟨false, q⟩ : HubState))
      = .ok (some ⟨false,
          q ++ handlers.map (fun hl =>
            (pri, { priority := pri, func := hl, args := args }))⟩) := by
  intro handlers
  induction handlers with
  | nil => intro q; simp; rfl
  | cons h0 rest ih =>
    intro q
    rw [List.foldlM_cons]
    have hstep :
        registerEmission (some ⟨false, q⟩ : HubState)
          { priority := pri, func := h0, args := args }
        = .ok (some ⟨false, q ++ [(pri, { priority := pri, func := h0, args := args })]⟩) := by
      simp [registerEmission, getSignalProcessor, Processor.submit]
      rfl
    rw [hstep]
    show (rest.foldlM
        (fun hh handler =>
          registerEmission hh { priority := pri, func := handler, args := args })
        (some ⟨false, q ++ [(pri, { priority := pri, func := h0, args := args })]⟩ : HubState))
      = _
    rw [ih]
    simp

theorem mkEntry_free {slot : Slot} (h : slot.kind = SlotKind.free) :
    mkEntry slot = .efn slot := by
  obtain ⟨kind, ow, q, an⟩ := slot
  cases h
  rfl

theorem mkEntry_method {slot : Slot} (h : slot.kind = SlotKind.method) :
    mkEntry slot = .ewm slot := by
  obtain ⟨kind, ow, q, an⟩ := slot
  cases h
  rfl

theorem slotLive_method {live : Nat → Bool} {slot : Slot}
    (h : slot.kind = SlotKind.method) (hl : slotLive live slot = true) :
    live slot.owner = true := by
  obtain ⟨kind, ow, q, an⟩ := slot
  cases h
  exact hl

theorem deref_mkEntry {live : Nat → Bool} {slot : Slot}
    (hl : slotLive live slot = true) : deref live (mkEntry slot) = some slot := by
  obtain ⟨kind, ow, q, an⟩ := slot
  cases kind
  · rfl
  · have hlo : live ow = true := hl
    rw [mkEntry_method rfl, deref, if_pos hlo]

/-! ### Claim theorems -/

/-- C1: for every pair of signatures, the resolver's distance is `-2` when the
lengths differ (decided before any per-position comparison), `0` when every
position is exactly equal (in particular `distance(S, S) = 0`), `-1` when some
position's registered type is absent from the candidate type's MRO chain
(short-circuiting, hence independent of later positions), and otherwise the
sum over all positions of the registered type's depth in the candidate type's
MRO chain, a non-negative integer. -/
theorem c1_resolver_distance (M : Ty → List Ty) (c r : Sig) :
    (c.length ≠ r.length → distance M c r = -2) ∧
    (distance M c c = 0) ∧
    (c.length = r.length → (∀ p ∈ c.zip r, p.1 = p.2) → distance M c r = 0) ∧
    (c.length = r.length → ¬ (∀ p ∈ c.zip r, p.1 = p.2) →
      (∃ p ∈ c.zip r, idxOf? p.2 (M p.1) = none) → distance M c r = -1) ∧
    (c.length = r.length → ¬ (∀ p ∈ c.zip r, p.1 = p.2) →
      (∀ p ∈ c.zip r, (idxOf? p.2 (M p.1)).isSome) →
      distance M c r =
        ((c.zip r).map (fun p => (((idxOf? p.2 (M p.1)).getD 0 : Nat) : Int))).sum ∧
      0 ≤ distance M c r) :=
  ⟨fun h => distance_len_ne h,
   distance_self M c,
   fun h1 h2 => distance_all_eq h1 h2,
   fun h1 h2 h3 => distance_incompatible h1 h2 h3,
   fun h1 h2 h3 => distance_sum h1 h2 h3⟩

/-- Witness for `c1_resolver_distance` at concrete signatures over `Mex`
(`int,str` vs the registered pairs of the repository's own test fixture). -/
theorem c1_resolver_distance_witness :
    distance Mex [1, 2, 2] [1, 2] = -2 ∧
    distance Mex [1, 2] [1, 2] = 0 ∧
    distance Mex [2, 2] [1, 2] = -1 ∧
    (distance Mex [1, 2] [0, 0] =
        ((([1, 2] : Sig).zip [0, 0]).map
          (fun p => (((idxOf? p.2 (Mex p.1)).getD 0 : Nat) : Int))).sum ∧
      0 ≤ distance Mex [1, 2] [0, 0]) :=
  ⟨(c1_resolver_distance Mex [1, 2, 2] [1, 2]).1 (by decide),
   (c1_resolver_distance Mex [1, 2] [1, 2]).2.1,
   (c1_resolver_distance Mex [2, 2] [1, 2]).2.2.2.1 (by decide) (by decide) (by decide),
   (c1_resolver_distance Mex [1, 2] [0, 0]).2.2.2.2 (by decide) (by decide) (by decide)⟩

/-- C2 (code bug): the claim says entries whose owner has died are silently
omitted from the result of `slots`. In the code the dead `WeakMethod` proxy
stays in its bucket (it is kept alive by `_weak_methods`) and is dereferenced
to `None`: after connecting the bound method `mwEx` and the death of its
owner `7`, `slots((int, str))` evaluates to `[None]` — a one-element list
containing `None` — instead of `[]`. This is the behavior the repository's
own (disabled) test `test_weakref_cleanup` records as an error ("still shows
2"). -/
theorem c2_dead_proxy_in_result :
    (Signal.connect Mex (Signal.mkSignal [[1, 2]] 4) mwEx).map
        (fun sg => Signal.slots Mex liveDead sg [1, 2] none)
      = .ok [none] := rfl

/-- C5: when every registered signature is at negative distance from the
slot's derived signature, `connect` fails with the "no similar signal type
definitions found" error naming the slot and its derived types, and no state
is produced (the registry is left unchanged by the failed call). -/
theorem c5_connect_no_match (M : Ty → List Ty) (sg : Signal) (slot : Slot)
    (h : ∀ k ∈ sg.typedefs, distance M (readAnnotations slot) k < 0) :
    Signal.connect M sg slot = .error ⟨slot.qual, readAnnotations slot⟩ ∧
    ∀ sg' : Signal, Signal.connect M sg slot ≠ .ok sg' := by
  have he := connect_error_eq (similarFiltered_eq_nil h)
  refine ⟨he, ?_⟩
  intro sg' hok
  rw [he] at hok
  cases hok

/-- Witness for `c5_connect_no_match`: a three-parameter slot against the
two-position `Signal([int, str])`. -/
theorem c5_connect_no_match_witness :
    Signal.connect Mex (Signal.mkSignal [[1, 2]] 4) f3Ex
      = .error ⟨f3Ex.qual, readAnnotations f3Ex⟩ :=
  (c5_connect_no_match Mex (Signal.mkSignal [[1, 2]] 4) f3Ex (by decide)).1

/-- C9 counterexample: the claim says `disconnect` of a slot that is not
registered is always a no-op that raises no error; but for a bound-method
slot whose qualname is absent from `_weak_methods`, the code executes
`del self._weak_methods[slot.__qualname__]` and raises `KeyError`. -/
theorem c9_counterexample :
    mwEx.kind = SlotKind.method ∧
    (∀ b ∈ (Signal.mkSignal [[1, 2]] 4).slotsStructs,
      Entry.efn mwEx ∉ b.2 ∧ Entry.ewm mwEx ∉ b.2) ∧
    Signal.disconnect (Signal.mkSignal [[1, 2]] 4) mwEx = .error () :=
  ⟨rfl, by decide, rfl⟩

/-- C9 (amended): `disconnect` of a not-registered free-standing slot is a
no-op — it raises no error and returns the registry and lookup table
unchanged; `disconnect` of a bound-method slot whose qualname is not in the
lookup table raises a `KeyError` instead. -/
theorem c9_disconnect_absent (sg : Signal) (slot : Slot) :
    (slot.kind = SlotKind.free → (∀ b ∈ sg.slotsStructs, Entry.efn slot ∉ b.2) →
      Signal.disconnect sg slot = .ok sg) ∧
    (slot.kind = SlotKind.method → wmLookup slot.qual sg.weakMethods = none →
      Signal.disconnect sg slot = .error ()) := by
  constructor
  · intro hk habs
    obtain ⟨kind, ow, q, an⟩ := slot
    cases hk
    show Except.ok _ = Except.ok sg
    have hmap : sg.slotsStructs.map
        (fun b => (b.1, b.2.filter (fun e => ¬ e = Entry.efn ⟨SlotKind.free, ow, q, an⟩)))
        = sg.slotsStructs := by
      conv_rhs => rw [← List.map_id sg.slotsStructs]
      apply List.map_congr_left
      intro b hb
      have hfil : b.2.filter (fun e => ¬ e = Entry.efn ⟨SlotKind.free, ow, q, an⟩) = b.2 := by
        apply List.filter_eq_self.mpr
        intro e he
        simp only [decide_eq_true_eq]
        intro hcontra
        exact habs b hb (hcontra ▸ he)
      rw [hfil]
      rfl
    rw [hmap]
  · intro hk hnone
    obtain ⟨kind, ow, q, an⟩ := slot
    cases hk
    simp only [Signal.disconnect]
    simp [hnone]

/-- Witness for `c9_disconnect_absent`: the fresh `Signal([int, str])` with
the free slot `fwEx` (no-op) and the bound slot `mwEx` (`KeyError`). -/
theorem c9_disconnect_absent_witness :
    Signal.disconnect (Signal.mkSignal [[1, 2]] 4) fwEx = .ok (Signal.mkSignal [[1, 2]] 4) ∧
    Signal.disconnect (Signal.mkSignal [[1, 2]] 4) mwEx = .error () :=
  ⟨(c9_disconnect_absent (Signal.mkSignal [[1, 2]] 4) fwEx).1 rfl (by decide),
   (c9_disconnect_absent (Signal.mkSignal [[1, 2]] 4) mwEx).2 rfl (by decide)⟩

/-- C4 counterexample: the claim quantifies over every Signal constructed
from `k` iterable typedef arguments and asserts at least `k` registry
entries; constructing from the three (duplicate) arguments `[int], [int],
[int]` yields only `2` entries (`(int,)` and `(object,)`), and `2 < 3`. -/
theorem c4_counterexample :
    (Signal.mkSignal [[1], [1], [1]] 4).typedefs.length = 2 ∧ 2 < 3 :=
  ⟨rfl, by decide⟩

/-- C4 (amended): for every Signal constructed from typedef arguments `tds`,
the registry keys are exactly the supplied typedefs together with their
fully-generalized versions, with no duplicate keys; when the supplied
typedefs are pairwise distinct, `typedefs` has between `k` and `2k` entries,
with fewer than `2k` only when some supplied typedef's generalization
coincides with an existing entry (another generalization or a supplied
typedef). -/
theorem c4_registry_entries (tds : List Sig) (p : Int) :
    ((Signal.mkSignal tds p).typedefs.toFinset
        = tds.toFinset ∪ (tds.map genSig).toFinset) ∧
    (Signal.mkSignal tds p).typedefs.Nodup ∧
    (tds.Nodup →
      tds.length ≤ (Signal.mkSignal tds p).typedefs.length ∧
      (Signal.mkSignal tds p).typedefs.length ≤ 2 * tds.length ∧
      ((Signal.mkSignal tds p).typedefs.length < 2 * tds.length →
        ¬ ((tds.map genSig).Nodup ∧ ∀ td ∈ tds, genSig td ∉ tds))) := by
  refine ⟨mkSignal_typedefs_toFinset tds p, mkSignal_typedefs_nodup tds p, ?_⟩
  intro hnd
  have hcard : (Signal.mkSignal tds p).typedefs.toFinset.card
      = (Signal.mkSignal tds p).typedefs.length :=
    List.toFinset_card_of_nodup (mkSignal_typedefs_nodup tds p)
  have hsub : tds.toFinset ⊆ (Signal.mkSignal tds p).typedefs.toFinset := by
    rw [mkSignal_typedefs_toFinset]
    exact Finset.subset_union_left
  refine ⟨?_, ?_, ?_⟩
  · calc tds.length = tds.toFinset.card := (List.toFinset_card_of_nodup hnd).symm
    _ ≤ (Signal.mkSignal tds p).typedefs.toFinset.card := Finset.card_le_card hsub
    _ = (Signal.mkSignal tds p).typedefs.length := hcard
  · calc (Signal.mkSignal tds p).typedefs.length
        = (Signal.mkSignal tds p).typedefs.toFinset.card := hcard.symm
    _ = (tds.toFinset ∪ (tds.map genSig).toFinset).card := by
        rw [mkSignal_typedefs_toFinset]
    _ ≤ tds.toFinset.card + (tds.map genSig).toFinset.card := Finset.card_union_le _ _
    _ ≤ tds.length + (tds.map genSig).length :=
        Nat.add_le_add (List.toFinset_card_le tds) (List.toFinset_card_le _)
    _ = 2 * tds.length := by rw [List.length_map]; ring
  · intro hlt hgood
    obtain ⟨hgnd, hdisj⟩ := hgood
    have hdis : Disjoint tds.toFinset (tds.map genSig).toFinset := by
      rw [Finset.disjoint_left]
      intro x hx hgx
      obtain ⟨td, htd, htdx⟩ := List.mem_map.mp (List.mem_toFinset.mp hgx)
      exact hdisj td htd (htdx ▸ List.mem_toFinset.mp hx)
    have heq : (Signal.mkSignal tds p).typedefs.length = 2 * tds.length := by
      calc (Signal.mkSignal tds p).typedefs.length
          = (Signal.mkSignal tds p).typedefs.toFinset.card := hcard.symm
      _ = (tds.toFinset ∪ (tds.map genSig).toFinset).card := by
          rw [mkSignal_typedefs_toFinset]
      _ = tds.toFinset.card + (tds.map genSig).toFinset.card :=
          Finset.card_union_of_disjoint hdis
      _ = tds.length + (tds.map genSig).length := by
          rw [List.toFinset_card_of_nodup hnd, List.toFinset_card_of_nodup hgnd]
      _ = 2 * tds.length := by rw [List.length_map]; ring
    rw [heq] at hlt
    exact lt_irrefl _ hlt

/-- Witness for `c4_registry_entries`: `Signal([int, str])` has its `k = 1`
typedef and the generalization, `1 ≤ 2 ≤ 2`. -/
theorem c4_registry_entries_witness :
    (Signal.mkSignal [[1, 2]] 4).typedefs.toFinset
        = ([[1, 2]] : List Sig).toFinset ∪ (([[1, 2]] : List Sig).map genSig).toFinset ∧
    1 ≤ (Signal.mkSignal [[1, 2]] 4).typedefs.length ∧
    (Signal.mkSignal [[1, 2]] 4).typedefs.length ≤ 2 * 1 :=
  ⟨(c4_registry_entries [[1, 2]] 4).1,
   ((c4_registry_entries [[1, 2]] 4).2.2 (by decide)).1,
   ((c4_registry_entries [[1, 2]] 4).2.2 (by decide)).2.1⟩

/-- C8 counterexample: the claim says every emission after `shutdown()`
either raises the post-shutdown state error or is silently dropped so that
no slot is invoked. In the code, `shutdown()` resets the global `_processor`
to `None`, and the next `emit` transparently rebuilds a fresh executor via
`getSignalProcessor` and enqueues one task per matched slot: here it returns
normally (no error) with the slot `fwEx`'s task sitting in the new work
queue — so neither of the claimed outcomes occurs. -/
theorem c8_counterexample :
    Signal.emit Mex liveAll
        ⟨4, [([1, 2], [Entry.efn fwEx]), ([0, 0], [])], []⟩ [1, 2]
        (hubShutdown (some ⟨true, []⟩))
      = .ok (some ⟨false, [(4, ⟨4, some fwEx, [1, 2]⟩)]⟩) := rfl

/-- C8 (amended): every emission performed after `shutdown()` (global
executor reset to `None`) that matches at least one handler neither raises
nor is dropped: `emit` lazily rebuilds a fresh executor and submits one task
per returned handler, at this signal's priority, in order. -/
theorem c8_emit_rebuilds_hub (M : Ty → List Ty) (live : Nat → Bool)
    (sg : Signal) (args : List Ty) (h : HubState)
    (hne : Signal.slots M live sg args none ≠ []) :
    Signal.emit M live sg args (hubShutdown h) =
      .ok (some ⟨false, (Signal.slots M live sg args none).map
        (fun hl => (sg.priority, { priority := sg.priority, func := hl, args := args }))⟩) := by
  rw [Signal.emit, hubShutdown]
  cases hcase : Signal.slots M live sg args none with
  | nil => exact absurd hcase hne
  | cons h0 rest =>
    rw [List.foldlM_cons]
    have hstep : registerEmission (none : HubState)
        { priority := sg.priority, func := h0, args := args }
        = .ok (some ⟨false, [(sg.priority,
            { priority := sg.priority, func := h0, args := args })]⟩) := by
      simp [registerEmission, getSignalProcessor, Processor.submit]
      rfl
    rw [hstep]
    show (rest.foldlM
        (fun hh handler =>
          registerEmission hh { priority := sg.priority, func := handler, args := args })
        (some ⟨false, [(sg.priority,
          { priority := sg.priority, func := h0, args := args })]⟩ : HubState)) = _
    rw [emit_foldlM_fresh]
    simp

/-- Witness for `c8_emit_rebuilds_hub`: a signal with the live slot `fwEx`
emitted after shutdown of a previously running hub. -/
theorem c8_emit_rebuilds_hub_witness :
    Signal.emit Mex liveAll
        ⟨5, [([1, 2], [Entry.efn fwEx, Entry.efn fplainEx]), ([0, 0], [])], []⟩ [1, 2]
        (hubShutdown (some ⟨false, [(9, ⟨9, none, []⟩)]⟩))
      = .ok (some ⟨false,
          (Signal.slots Mex liveAll
            ⟨5, [([1, 2], [Entry.efn fwEx, Entry.efn fplainEx]), ([0, 0], [])], []⟩ [1, 2] none).map
            (fun hl => (5, { priority := 5, func := hl, args := [1, 2] }))⟩) :=
  c8_emit_rebuilds_hub Mex liveAll
    ⟨5, [([1, 2], [Entry.efn fwEx, Entry.efn fplainEx]), ([0, 0], [])], []⟩ [1, 2]
    (some ⟨false, [(9, ⟨9, none, []⟩)]⟩) (by decide)

/-- C7 counterexample: the claim says proxies for the same function on two
different owners coexist independently, one per `(owner, function)` pair. The
lookup table is keyed by `__qualname__` alone, which is identical for the two
owners: after connecting `mAEx` (owner `1`) and then `mBEx` (owner `2`, same
qualname `12`), the table holds the single entry for `mBEx`; `mAEx`'s proxy
lost its strong reference and was garbage collected out of its bucket — the
two registrations did not coexist. -/
theorem c7_counterexample :
    mAEx.owner ≠ mBEx.owner ∧
    (Signal.connect Mex (Signal.mkSignal [[1, 2]] 4) mAEx).bind
        (fun sg => Signal.connect Mex sg mBEx)
      = .ok ⟨4, [([1, 2], [Entry.ewm mBEx]), ([0, 0], [])], [(12, mBEx)]⟩ :=
  ⟨by decide, rfl⟩

/-- C7 (amended): at most one persistent proxy per distinct qualified name:
after any successful `connect` of a bound-method slot (from a state whose
lookup-table keys are duplicate-free, whose registry keys are duplicate-free,
and whose bucket proxies are all backed by the lookup table), the lookup
table holds exactly one entry under that slot's qualname — the new slot — and
exactly one proxy with that qualname exists across all buckets; reconnecting
a slot with the same qualname (even bound to a different owner) replaces the
existing entry rather than adding a duplicate. -/
theorem c7_one_proxy_per_qualname (M : Ty → List Ty) (sg sg' : Signal) (slot : Slot)
    (hk : slot.kind = SlotKind.method)
    (hnd : (sg.weakMethods.map (·.1)).Nodup)
    (hknd : sg.typedefs.Nodup)
    (hcoh : wmCoherent sg = true)
    (hok : Signal.connect M sg slot = .ok sg') :
    sg'.weakMethods.filter (fun p => p.1 = slot.qual) = [(slot.qual, slot)] ∧
    (sg'.weakMethods.map (·.1)).Nodup ∧
    (sg'.slotsStructs.map (fun b => b.2.countP (fun e =>
        match e with
        | Entry.ewm s => s.qual == slot.qual
        | Entry.efn _ => false))).sum = 1 := by
  have hne : ¬ similarFiltered M sg (readAnnotations slot) = [] := by
    intro hnil
    rw [connect_error_eq hnil] at hok
    cases hok
  rw [connect_method_eq hk hne] at hok
  cases hok
  set sg1 := (if (wmLookup slot.qual sg.weakMethods).isSome
              then purgeQual slot.qual sg else sg) with hsg1
  set td := chosenTypedef M sg (readAnnotations slot) with htd
  have hwm1 : sg1.weakMethods = sg.weakMethods := by
    rw [hsg1]
    by_cases hl : (wmLookup slot.qual sg.weakMethods).isSome
    · rw [if_pos hl]; rfl
    · rw [if_neg hl]
  have hzero : ∀ b ∈ sg1.slotsStructs, b.2.countP (fun e =>
      match e with
      | Entry.ewm s => s.qual == slot.qual
      | Entry.efn _ => false) = 0 := by
    by_cases hl : (wmLookup slot.qual sg.weakMethods).isSome
    · rw [hsg1, if_pos hl]
      intro b hb
      obtain ⟨b0, _, hb0⟩ := List.mem_map.mp hb
      apply List.countP_eq_zero.mpr
      intro e he
      rw [← hb0] at he
      have he2 := List.mem_filter.mp he
      cases e with
      | efn s => simp
      | ewm s =>
        have : ¬ s.qual = slot.qual := by simpa using he2.2
        simpa using this
    · rw [hsg1, if_neg hl]
      intro b hb
      apply List.countP_eq_zero.mpr
      intro e he
      cases e with
      | efn s => simp
      | ewm s =>
        intro hq
        have hq2 : s.qual = slot.qual := by simpa using hq
        have hcoh1 := List.all_eq_true.mp hcoh b hb
        have hcoh2 := List.all_eq_true.mp hcoh1 (Entry.ewm s) he
        have hcoh3 : (wmLookup s.qual sg.weakMethods).isSome = true := hcoh2
        rw [hq2] at hcoh3
        exact hl hcoh3
  have htyp1 : sg1.typedefs = sg.typedefs := by
    rw [hsg1]
    by_cases hl : (wmLookup slot.qual sg.weakMethods).isSome
    · rw [if_pos hl]; exact typedefs_purgeQual _ _
    · rw [if_neg hl]
  have htdmem : td ∈ sg.typedefs := (chosenTypedef_spec hne).1
  refine ⟨?_, ?_, ?_⟩
  · show (wmInsert slot.qual slot sg1.weakMethods).filter (fun p => p.1 = slot.qual)
        = [(slot.qual, slot)]
    rw [hwm1]
    exact wmInsert_filter hnd
  · show ((wmInsert slot.qual slot sg1.weakMethods).map (·.1)).Nodup
    rw [hwm1]
    exact wmInsert_keys_nodup hnd
  · refine @sum_map_single (Sig × List Entry) (fun b => b.1)
      (fun b => b.2.countP (fun e =>
        match e with
        | Entry.ewm s => s.qual == slot.qual
        | Entry.efn _ => false)) td 1 _ ?_ ?_ ?_ ?_
    · show ((updBucket { sg1 with weakMethods := wmInsert slot.qual slot sg1.weakMethods }
          td (setAdd (Entry.ewm slot))).typedefs).Nodup
      rw [typedefs_updBucket]
      show sg1.typedefs.Nodup
      rw [htyp1]
      exact hknd
    · show td ∈ (updBucket { sg1 with weakMethods := wmInsert slot.qual slot sg1.weakMethods }
          td (setAdd (Entry.ewm slot))).typedefs
      rw [typedefs_updBucket]
      show td ∈ sg1.typedefs
      rw [htyp1]
      exact htdmem
    · intro b hb hbne
      obtain ⟨b0, hb0, hgb0⟩ := List.mem_map.mp hb
      by_cases hb0td : b0.1 = td
      · rw [if_pos hb0td] at hgb0
        rw [← hgb0] at hbne
        exact absurd hb0td (by simpa using hbne)
      · rw [if_neg hb0td] at hgb0
        rw [← hgb0]
        exact hzero b0 hb0
    · intro b hb hbeq
      obtain ⟨b0, hb0, hgb0⟩ := List.mem_map.mp hb
      by_cases hb0td : b0.1 = td
      · rw [if_pos hb0td] at hgb0
        rw [← hgb0]
        have hz0 := hzero b0 hb0
        have hnotmem : Entry.ewm slot ∉ b0.2 := by
          intro hmem
          have := List.countP_eq_zero.mp hz0 _ hmem
          simp at this
        show (setAdd (Entry.ewm slot) b0.2).countP _ = 1
        rw [setAdd, if_neg hnotmem, List.countP_append, hz0]
        simp
      · rw [if_neg hb0td] at hgb0
        rw [← hgb0] at hbeq
        exact absurd hbeq hb0td

/-- Witness for `c7_one_proxy_per_qualname`: connecting `mAEx` to the fresh
`Signal([int, str])`. -/
theorem c7_one_proxy_per_qualname_witness :
    (⟨4, [([1, 2], [Entry.ewm mAEx]), ([0, 0], [])], [(12, mAEx)]⟩ : Signal).weakMethods.filter
        (fun p => p.1 = mAEx.qual) = [(mAEx.qual, mAEx)] ∧
    ((⟨4, [([1, 2], [Entry.ewm mAEx]), ([0, 0], [])], [(12, mAEx)]⟩ : Signal).weakMethods.map
        (·.1)).Nodup ∧
    ((⟨4, [([1, 2], [Entry.ewm mAEx]), ([0, 0], [])], [(12, mAEx)]⟩ : Signal).slotsStructs.map
        (fun b => b.2.countP (fun e =>
          match e with
          | Entry.ewm s => s.qual == mAEx.qual
          | Entry.efn _ => false))).sum = 1 :=
  c7_one_proxy_per_qualname Mex (Signal.mkSignal [[1, 2]] 4)
    ⟨4, [([1, 2], [Entry.ewm mAEx]), ([0, 0], [])], [(12, mAEx)]⟩ mAEx
    rfl (by decide) (by decide) (by decide) rfl

/-- C6: once a connected member-function slot's owning object has died (in
any state whose directly-held entries are all free callables, as `connect`
guarantees), no `slots` query — any signature, any tolerance — returns that
slot again, without any explicit `disconnect`: its proxy dereferences to
`None`, never to the bound method. -/
theorem c6_dead_owner_never_returned (M : Ty → List Ty) (live : Nat → Bool)
    (sg : Signal) (slot : Slot)
    (hk : slot.kind = SlotKind.method)
    (hdead : live slot.owner = false)
    (hwk : bucketsWellKinded sg = true)
    (q : Sig) (tol : Option Nat) :
    some slot ∉ Signal.slots M live sg q tol := by
  intro hmem
  obtain ⟨k, hkk, _, _, e, he, hd⟩ := mem_slots.mp hmem
  obtain ⟨b, hb, _, heb⟩ := mem_bucketOf he
  have hwk1 := List.all_eq_true.mp (List.all_eq_true.mp hwk b hb) e heb
  cases e with
  | efn s =>
    have hs : s.kind = SlotKind.free := by simpa using hwk1
    have hss : s = slot := by
      have : (some s : Option Slot) = some slot := hd
      exact Option.some_injective _ this
    rw [hss, hk] at hs
    cases hs
  | ewm s =>
    rw [deref] at hd
    by_cases hlive : live s.owner
    · rw [if_pos hlive] at hd
      have hss : s = slot := Option.some_injective _ hd
      rw [hss, hdead] at hlive
      cases hlive
    · rw [if_neg hlive] at hd
      cases hd

/-- Witness for `c6_dead_owner_never_returned`: the bound method `mwEx`
whose owner `7` is dead, in the state `connect` produced for it. -/
theorem c6_dead_owner_never_returned_witness :
    some mwEx ∉ Signal.slots Mex liveDead
      ⟨4, [([1, 2], [Entry.ewm mwEx]), ([0, 0], [])], [(12, mwEx)]⟩ [1, 2] none :=
  c6_dead_owner_never_returned Mex liveDead
    ⟨4, [([1, 2], [Entry.ewm mwEx]), ([0, 0], [])], [(12, mwEx)]⟩ mwEx
    rfl (by decide) (by decide) [1, 2] none

/-- C3: for every slot whose derived signature (annotations in order,
unannotated positions read as `object`) is at non-negative distance from at
least one registered signature, `connect` succeeds and adds the slot's entry
(weakly: directly for a free callable, as a `WeakMethod` proxy for a bound
method, provided its owner is alive and the entry is not already present)
to exactly the bucket `chosenTypedef` of minimal non-negative distance, and
a subsequent `slots` query at that bucket's signature returns the slot. -/
theorem c3_connect_minimal_bucket (M : Ty → List Ty) (live : Nat → Bool)
    (sg : Signal) (slot : Slot)
    (hcompat : ∃ k ∈ sg.typedefs, 0 ≤ distance M (readAnnotations slot) k)
    (hfresh : ∀ b ∈ sg.slotsStructs, mkEntry slot ∉ b.2)
    (hlive : slotLive live slot = true) :
    ∃ sg', Signal.connect M sg slot = .ok sg' ∧
      chosenTypedef M sg (readAnnotations slot) ∈ sg.typedefs ∧
      0 ≤ distance M (readAnnotations slot) (chosenTypedef M sg (readAnnotations slot)) ∧
      (∀ k ∈ sg.typedefs, 0 ≤ distance M (readAnnotations slot) k →
        distance M (readAnnotations slot) (chosenTypedef M sg (readAnnotations slot))
          ≤ distance M (readAnnotations slot) k) ∧
      mkEntry slot ∈ bucketOf sg' (chosenTypedef M sg (readAnnotations slot)) ∧
      (∀ k ∈ sg'.typedefs, k ≠ chosenTypedef M sg (readAnnotations slot) →
        mkEntry slot ∉ bucketOf sg' k) ∧
      some slot ∈ Signal.slots M live sg'
        (chosenTypedef M sg (readAnnotations slot)) none := by
  obtain ⟨k0, hk0, hd0⟩ := hcompat
  have hne : ¬ similarFiltered M sg (readAnnotations slot) = [] :=
    similarFiltered_ne_nil hk0 hd0
  obtain ⟨htdmem, htdnn, htdmin⟩ := chosenTypedef_spec hne
  set td := chosenTypedef M sg (readAnnotations slot) with htd
  cases hkind : slot.kind with
  | free =>
    refine ⟨updBucket sg td (setAdd (.efn slot)), connect_free_eq hkind hne, htdmem,
      htdnn, htdmin, ?_, ?_, ?_⟩
    · rw [mkEntry_free hkind, bucketOf_updBucket_self _ htdmem]
      exact mem_setAdd_self _ _
    · intro k hk hkne
      rw [typedefs_updBucket] at hk
      rw [bucketOf_updBucket_ne _ hkne]
      intro hmem
      obtain ⟨b, hb, _, heb⟩ := mem_bucketOf hmem
      exact hfresh b hb heb
    · apply mem_slots.mpr
      refine ⟨td, ?_, ?_, rfl, mkEntry slot, ?_, deref_mkEntry hlive⟩
      · rw [typedefs_updBucket]; exact htdmem
      · rw [distance_self]; decide
      · rw [mkEntry_free hkind, bucketOf_updBucket_self _ htdmem]
        exact mem_setAdd_self _ _
  | method =>
    refine ⟨_, connect_method_eq hkind hne, htdmem, htdnn, htdmin, ?_, ?_, ?_⟩
    · rw [mkEntry_method hkind]
      have htd2 : td ∈ (({ (if (wmLookup slot.qual sg.weakMethods).isSome
            then purgeQual slot.qual sg else sg) with
            weakMethods := wmInsert slot.qual slot
              (if (wmLookup slot.qual sg.weakMethods).isSome
               then purgeQual slot.qual sg else sg).weakMethods } : Signal)).typedefs := by
        show td ∈ ((if (wmLookup slot.qual sg.weakMethods).isSome
            then purgeQual slot.qual sg else sg)).typedefs
        by_cases hl : (wmLookup slot.qual sg.weakMethods).isSome
        · rw [if_pos hl, typedefs_purgeQual]; exact htdmem
        · rw [if_neg hl]; exact htdmem
      rw [bucketOf_updBucket_self _ htd2]
      exact mem_setAdd_self _ _
    · intro k hk hkne
      rw [bucketOf_updBucket_ne _ hkne, mkEntry_method hkind]
      show Entry.ewm slot ∉ bucketOf (if (wmLookup slot.qual sg.weakMethods).isSome
          then purgeQual slot.qual sg else sg) k
      by_cases hl : (wmLookup slot.qual sg.weakMethods).isSome
      · rw [if_pos hl, bucketOf_purgeQual]
        intro hmem
        have := (List.mem_filter.mp hmem).2
        simp at this
      · rw [if_neg hl]
        intro hmem
        obtain ⟨b, hb, _, heb⟩ := mem_bucketOf hmem
        exact hfresh b hb (mkEntry_method hkind ▸ heb)
    · apply mem_slots.mpr
      refine ⟨td, ?_, ?_, rfl, mkEntry slot, ?_, deref_mkEntry hlive⟩
      · rw [typedefs_updBucket]
        show td ∈ ((if (wmLookup slot.qual sg.weakMethods).isSome
            then purgeQual slot.qual sg else sg)).typedefs
        by_cases hl : (wmLookup slot.qual sg.weakMethods).isSome
        · rw [if_pos hl, typedefs_purgeQual]; exact htdmem
        · rw [if_neg hl]; exact htdmem
      · rw [distance_self]; decide
      · rw [mkEntry_method hkind]
        have htd2 : td ∈ (({ (if (wmLookup slot.qual sg.weakMethods).isSome
            then purgeQual slot.qual sg else sg) with
            weakMethods := wmInsert slot.qual slot
              (if (wmLookup slot.qual sg.weakMethods).isSome
               then purgeQual slot.qual sg else sg).weakMethods } : Signal)).typedefs := by
          show td ∈ ((if (wmLookup slot.qual sg.weakMethods).isSome
              then purgeQual slot.qual sg else sg)).typedefs
          by_cases hl : (wmLookup slot.qual sg.weakMethods).isSome
          · rw [if_pos hl, typedefs_purgeQual]; exact htdmem
          · rw [if_neg hl]; exact htdmem
        rw [bucketOf_updBucket_self _ htd2]
        exact mem_setAdd_self _ _

/-- Witness for `c3_connect_minimal_bucket`: the free slot `fwEx`
(`(v1: int, v2: str)`) against the fresh `Signal([int, str])`. -/
theorem c3_connect_minimal_bucket_witness :
    ∃ sg', Signal.connect Mex (Signal.mkSignal [[1, 2]] 4) fwEx = .ok sg' ∧
      chosenTypedef Mex (Signal.mkSignal [[1, 2]] 4) (readAnnotations fwEx)
        ∈ (Signal.mkSignal [[1, 2]] 4).typedefs ∧
      0 ≤ distance Mex (readAnnotations fwEx)
        (chosenTypedef Mex (Signal.mkSignal [[1, 2]] 4) (readAnnotations fwEx)) ∧
      (∀ k ∈ (Signal.mkSignal [[1, 2]] 4).typedefs,
        0 ≤ distance Mex (readAnnotations fwEx) k →
        distance Mex (readAnnotations fwEx)
          (chosenTypedef Mex (Signal.mkSignal [[1, 2]] 4) (readAnnotations fwEx))
          ≤ distance Mex (readAnnotations fwEx) k) ∧
      mkEntry fwEx ∈ bucketOf sg'
        (chosenTypedef Mex (Signal.mkSignal [[1, 2]] 4) (readAnnotations fwEx)) ∧
      (∀ k ∈ sg'.typedefs,
        k ≠ chosenTypedef Mex (Signal.mkSignal [[1, 2]] 4) (readAnnotations fwEx) →
        mkEntry fwEx ∉ bucketOf sg' k) ∧
      some fwEx ∈ Signal.slots Mex liveAll sg'
        (chosenTypedef Mex (Signal.mkSignal [[1, 2]] 4) (readAnnotations fwEx)) none :=
  c3_connect_minimal_bucket Mex liveAll (Signal.mkSignal [[1, 2]] 4) fwEx
    (by decide) (by decide) rfl

theorem similarity_congr {M : Ty → List Ty} {sg sg' : Signal} (t : Sig)
    (h : sg'.typedefs = sg.typedefs) :
    Signal.similarity M sg' t = Signal.similarity M sg t := by
  rw [Signal.similarity, Signal.similarity, h]

theorem similarFiltered_congr {M : Ty → List Ty} {sg sg' : Signal} (t : Sig)
    (h : sg'.typedefs = sg.typedefs) :
    similarFiltered M sg' t = similarFiltered M sg t := by
  rw [similarFiltered, similarFiltered, similarity_congr t h]

theorem chosenTypedef_congr {M : Ty → List Ty} {sg sg' : Signal} (t : Sig)
    (h : sg'.typedefs = sg.typedefs) :
    chosenTypedef M sg' t = chosenTypedef M sg t := by
  rw [chosenTypedef, chosenTypedef, similarFiltered_congr t h]

theorem similarity_keys (M : Ty → List Ty) (sg : Signal) (t : Sig) :
    (Signal.similarity M sg t).map (·.1) = sg.typedefs := by
  rw [Signal.similarity, List.map_map]
  conv_rhs => rw [← List.map_id sg.typedefs]
  apply List.map_congr_left
  intro k _
  rfl

theorem updBucket_eq_self {sg : Signal} {k : Sig} {f : List Entry → List Entry}
    (h : ∀ b ∈ sg.slotsStructs, b.1 = k → f b.2 = b.2) :
    updBucket sg k f = sg := by
  rw [updBucket]
  have hmap : sg.slotsStructs.map (fun b => if b.1 = k then (b.1, f b.2) else b)
      = sg.slotsStructs := by
    conv_rhs => rw [← List.map_id sg.slotsStructs]
    apply List.map_congr_left
    intro b hb
    by_cases hbk : b.1 = k
    · rw [if_pos hbk, h b hb hbk]
      rfl
    · rw [if_neg hbk]
      rfl
  rw [hmap]

/-- C10: connecting an already-connected free-standing slot again is
idempotent: the second `connect` returns the state unchanged, the
minimal-distance bucket holds the slot's entry exactly once, and a `slots`
query at that bucket's signature returns the slot exactly once. -/
theorem c10_connect_idempotent (M : Ty → List Ty) (live : Nat → Bool)
    (sg : Signal) (slot : Slot)
    (hkind : slot.kind = SlotKind.free)
    (hnd : sg.typedefs.Nodup)
    (hfresh : ∀ b ∈ sg.slotsStructs, ∀ e ∈ b.2, ¬ deref live e = some slot)
    (hcompat : ∃ k ∈ sg.typedefs, 0 ≤ distance M (readAnnotations slot) k) :
    ∃ sg₁, Signal.connect M sg slot = .ok sg₁ ∧
      Signal.connect M sg₁ slot = .ok sg₁ ∧
      (bucketOf sg₁ (chosenTypedef M sg (readAnnotations slot))).count
        (Entry.efn slot) = 1 ∧
      (Signal.slots M live sg₁
        (chosenTypedef M sg (readAnnotations slot)) none).count (some slot) = 1 := by
  obtain ⟨k0, hk0, hd0⟩ := hcompat
  have hne : ¬ similarFiltered M sg (readAnnotations slot) = [] :=
    similarFiltered_ne_nil hk0 hd0
  obtain ⟨htdmem, htdnn, htdmin⟩ := chosenTypedef_spec hne
  set td := chosenTypedef M sg (readAnnotations slot) with htd
  set sg₁ := updBucket sg td (setAdd (.efn slot)) with hsg₁
  have htyp : sg₁.typedefs = sg.typedefs := typedefs_updBucket sg td _
  have hbself : bucketOf sg₁ td = setAdd (.efn slot) (bucketOf sg td) :=
    bucketOf_updBucket_self _ htdmem
  have hnotmem : Entry.efn slot ∉ bucketOf sg td := by
    intro hmem
    obtain ⟨b, hb, _, heb⟩ := mem_bucketOf hmem
    exact hfresh b hb _ heb rfl
  have hadd : bucketOf sg₁ td = bucketOf sg td ++ [Entry.efn slot] := by
    rw [hbself, setAdd, if_neg hnotmem]
  have hfresh₁ : ∀ k, k ≠ td → ∀ e ∈ bucketOf sg₁ k, ¬ deref live e = some slot := by
    intro k hk e he
    rw [bucketOf_updBucket_ne _ hk] at he
    obtain ⟨b, hb, _, heb⟩ := mem_bucketOf he
    exact hfresh b hb e heb
  refine ⟨sg₁, connect_free_eq hkind hne, ?_, ?_, ?_⟩
  · have hne₁ : ¬ similarFiltered M sg₁ (readAnnotations slot) = [] := by
      rw [similarFiltered_congr _ htyp]
      exact hne
    rw [connect_free_eq hkind hne₁, chosenTypedef_congr _ htyp, ← htd]
    have hself : updBucket sg₁ td (setAdd (.efn slot)) = sg₁ := by
      apply updBucket_eq_self
      intro b hb hbk
      apply setAdd_eq_self
      have hb2 : b ∈ sg.slotsStructs.map
          (fun b => if b.1 = td then (b.1, setAdd (Entry.efn slot) b.2) else b) := hb
      obtain ⟨b0, hb0, hgb0⟩ := List.mem_map.mp hb2
      by_cases hb0td : b0.1 = td
      · rw [if_pos hb0td] at hgb0
        rw [← hgb0]
        exact mem_setAdd_self _ _
      · rw [if_neg hb0td] at hgb0
        rw [← hgb0] at hbk
        exact absurd hbk hb0td
    rw [hself]
  · rw [hadd, List.count_append]
    rw [List.count_eq_zero.mpr hnotmem]
    simp
  · have hcount : ∀ (L : List Entry),
        @List.count (Option Slot) _ (some slot) (L.map (deref live))
          = L.countP (fun e => deref live e == some slot) := by
      intro L
      show (L.map (deref live)).countP (· == some slot) = _
      rw [List.countP_map]
      rfl
    rw [slots_eq, hcount]
    have hflat : ((Signal.similarity M sg₁ td).flatMap (slotsPick sg₁ none)).countP
          (fun e => deref live e == some slot)
        = ((Signal.similarity M sg₁ td).map
            (fun v => (slotsPick sg₁ none v).countP
              (fun e => deref live e == some slot))).sum := by
      rw [List.countP_flatMap]
      rfl
    rw [hflat]
    refine @sum_map_single (Sig × Int) (fun v => v.1)
      (fun v => (slotsPick sg₁ none v).countP
        (fun e => deref live e == some slot)) td 1 _ ?_ ?_ ?_ ?_
    · rw [similarity_keys, htyp]
      exact hnd
    · rw [similarity_keys, htyp]
      exact htdmem
    · intro v hv hvne
      simp only [slotsPick]
      by_cases h1 : v.2 < 0
      · rw [if_pos h1]; rfl
      · rw [if_neg h1]
        by_cases h2 : exceeds v.2 none
        · rw [if_pos h2]; rfl
        · rw [if_neg h2]
          apply List.countP_eq_zero.mpr
          intro e he
          have := hfresh₁ v.1 hvne e he
          simpa using this
    · intro v hv hveq
      obtain ⟨hv1, hv2⟩ := mem_similarity.mp hv
      have hveq2 : v.1 = td := hveq
      simp only [slotsPick]
      have hd : v.2 = 0 := by rw [hv2, hveq2, distance_self]
      rw [hd, if_neg (by decide : ¬ (0 : Int) < 0),
          if_neg (by decide : ¬ exceeds 0 none = true)]
      rw [hveq2, hadd, List.countP_append]
      have h0 : (bucketOf sg td).countP (fun e => deref live e == some slot) = 0 := by
        apply List.countP_eq_zero.mpr
        intro e he
        obtain ⟨b, hb, _, heb⟩ := mem_bucketOf he
        have := hfresh b hb e heb
        simpa using this
      rw [h0]
      simp [List.countP_cons, deref]

/-- Witness for `c10_connect_idempotent`: the free slot `fwEx` on the fresh
`Signal([int, str])`. -/
theorem c10_connect_idempotent_witness :
    ∃ sg₁, Signal.connect Mex (Signal.mkSignal [[1, 2]] 4) fwEx = .ok sg₁ ∧
      Signal.connect Mex sg₁ fwEx = .ok sg₁ ∧
      (bucketOf sg₁
        (chosenTypedef Mex (Signal.mkSignal [[1, 2]] 4) (readAnnotations fwEx))).count
        (Entry.efn fwEx) = 1 ∧
      (Signal.slots Mex liveAll sg₁
        (chosenTypedef Mex (Signal.mkSignal [[1, 2]] 4) (readAnnotations fwEx)) none).count
        (some fwEx) = 1 :=
  c10_connect_idempotent Mex liveAll (Signal.mkSignal [[1, 2]] 4) fwEx
    rfl (by decide) (by decide) (by decide)

end Signals
